import Mathlib

/-!
Verification of the knowledge-base engine: a shallow embedding of the
chunking algorithm (`core/document_processor.py`), the RAG pipeline
(`core/rag_service.py`, `core/web_search_service.py`), the knowledge store
(`core/knowledge_store.py`), and the retriever, together with theorems
settling the specification claims about them.

Python strings are modelled as `List Char`; Python integers as `Int`
(window positions in `split_text` can go negative); slice and `rfind`
index normalization follows Python semantics.
-/

/-! ## Definitions -/

/-- Whitespace characters recognised by the model of Python `str.strip`
(sufficient for every character this repository's code paths produce). -/
def isPySpace (c : Char) : Bool :=
  c = ' ' || c = '\n' || c = '\t' || c = '\r'

/-- Model of Python `str.strip()`: remove leading and trailing whitespace. -/
def pyStrip (t : List Char) : List Char :=
  ((t.dropWhile isPySpace).reverse.dropWhile isPySpace).reverse

/-- Python slice-index normalization: negative indices count from the end,
then the index is clamped to `[0, n]`. -/
def pyIdx (n : Nat) (i : Int) : Nat :=
  if i < 0 then ((n : Int) + i).toNat else min i.toNat n

/-- Model of Python slicing `t[a:b]`. -/
def pySlice (t : List Char) (a b : Int) : List Char :=
  (t.take (pyIdx t.length b)).drop (pyIdx t.length a)

/-- Does `pat` occur in `t` starting at position `p`? -/
def matchesAt (t pat : List Char) (p : Nat) : Bool :=
  decide ((t.drop p).take pat.length = pat)

/-- Scan downward from `p` for the right-most occurrence of `pat` at a
position `≥ lo`; `-1` when there is none (the core of Python `rfind`). -/
def rfindFrom (t pat : List Char) (lo : Nat) : Nat → Int
  | 0 => if lo = 0 && matchesAt t pat 0 then (0 : Int) else -1
  | p + 1 =>
    if lo ≤ p + 1 && matchesAt t pat (p + 1) then ((p : Int) + 1)
    else rfindFrom t pat lo p

/-- Model of Python `t.rfind(pat, a, b)`: the highest position of an
occurrence of `pat` fully contained in the normalized range `[a, b)`,
or `-1`. -/
def pyRfind (t pat : List Char) (a b : Int) : Int :=
  let lo := pyIdx t.length a
  let hi := pyIdx t.length b
  if pat.length ≤ hi then rfindFrom t pat lo (hi - pat.length) else -1

/-- The ordered natural-break markers of `split_text`. -/
def breakChars : List (List Char) :=
  [['\n', '\n'], ['\n'], ['。'], ['！'], ['？'], ['.', ' '], ['!', ' '], ['?', ' '], ['；']]

/-- One step of the marker scan: `pos = text.rfind(bc, a, b)`;
`if pos > best_break: best_break = pos + len(bc)`. -/
def stepBreak (t : List Char) (a b : Int) (best : Int) (bc : List Char) : Int :=
  let pos := pyRfind t bc a b
  if best < pos then pos + bc.length else best

/-- The `best_break` value computed by the marker loop of `split_text`. -/
def bestBreakCalc (t : List Char) (a b : Int) : Int :=
  breakChars.foldl (stepBreak t a b) (-1)

/-- The end of the current window: `best_break` when it exceeds `start`,
otherwise the hard cut `start + chunk_size`. -/
def windowBoundary (t : List Char) (cs : Nat) (start : Int) : Int :=
  let e := start + (cs : Int)
  let b := bestBreakCalc t (start + ((cs / 2 : Nat) : Int)) e
  if start < b then b else e

/-- The start of the next window, `end - chunk_overlap`, for a window that
does not reach the end of the text. -/
def nextStart (t : List Char) (cs ov : Nat) (start : Int) : Int :=
  windowBoundary t cs start - (ov : Int)

/-- The `while start < len(text)` loop of `split_text`, fuelled: `none`
means the fuel ran out before the loop exited. -/
def splitLoop (t : List Char) (cs ov : Nat) : Nat → Int → Option (List (List Char))
  | 0, _ => none
  | fuel + 1, start =>
    if start < (t.length : Int) then
      if (t.length : Int) ≤ start + (cs : Int) then
        some [pyStrip (pySlice t start (t.length : Int))]
      else
        let e2 := windowBoundary t cs start
        let chunk := pyStrip (pySlice t start e2)
        match splitLoop t cs ov fuel (e2 - (ov : Int)) with
        | none => none
        | some rest => some (if chunk.isEmpty then rest else chunk :: rest)
    else some []

/-- Model of `split_text(text, chunk_size, chunk_overlap)` after its
parameter validation (`chunk_size > 0`, `0 <= chunk_overlap < chunk_size`;
invalid parameters raise `ValueError` and are treated as preconditions by
the theorems below). `none` means the fuel ran out, i.e. the Python loop
has not terminated within `fuel` iterations. -/
def split_text (t : List Char) (cs ov : Nat) (fuel : Nat) : Option (List (List Char)) :=
  let s := pyStrip t
  if s.isEmpty then some []
  else if s.length ≤ cs then some [s]
  else splitLoop s cs ov fuel 0

/-- The text `"aaaaa。" + "a" * 20` on which `split_text 10 9` loops
forever. -/
def nonTermText : List Char :=
  List.replicate 5 'a' ++ ['。'] ++ List.replicate 20 'a'

/-- Boolean test: `pat` occurs in `t` at position `p`, fully inside the
range `[lo, hi)` (the candidate set of `rfind`). -/
def occursAt (t pat : List Char) (lo hi p : Nat) : Bool :=
  decide (lo ≤ p) && decide (p + pat.length ≤ hi) && matchesAt t pat p

/-- The window `"aaaaaa\n\n。bcdefghij"` on which the paragraph break ending
at 8 wins over the full stop occurrence at 8 (which ends further right, at
9), because the full stop's start position 8 is not strictly greater than
the current best end 8. -/
def breakTieText : List Char :=
  ['a', 'a', 'a', 'a', 'a', 'a', '\n', '\n', '。', 'b', 'c', 'd', 'e', 'f', 'g', 'h', 'i', 'j']

/-- Re-insert the overlap: keep the first chunk whole and drop the first
`ov` characters of every later chunk, then concatenate. -/
def rejoinOverlap (ov : Nat) : List (List Char) → List Char
  | [] => []
  | c :: rest => c ++ (rest.map (fun d => d.drop ov)).flatten

/-- Two adjacent chunks share a suffix/prefix of length exactly `ov`. -/
def overlapOk (ov : Nat) (a b : List Char) : Bool :=
  decide (ov ≤ a.length) && decide (ov ≤ b.length) &&
    decide (a.drop (a.length - ov) = b.take ov)

/-- Check a relation on every adjacent pair of a list of chunks. -/
def adjacentOk (f : List Char → List Char → Bool) : List (List Char) → Bool
  | [] => true
  | [_] => true
  | a :: b :: rest => f a b && adjacentOk f (b :: rest)

/-- A character that is neither whitespace nor the first character of any
natural-break marker: text made only of such characters is chunked by hard
cuts alone and is untouched by `strip`. -/
def markerFreeChar (c : Char) : Bool :=
  !(isPySpace c) && !(['。', '！', '？', '.', '!', '?', '；'].contains c)

/-- Text containing no whitespace and no break-marker characters. -/
def cleanText (t : List Char) : Bool := t.all markerFreeChar

/-- The pure hard-cut windows of width `cs` advancing by `s = cs - ov`,
which `split_text` produces on clean text. -/
def hardWindows (t : List Char) (cs s : Nat) : Nat → Nat → List (List Char)
  | 0, _ => []
  | fuel + 1, start =>
    if t.length ≤ start + cs then [t.drop start]
    else (t.drop start).take cs :: hardWindows t cs s fuel (start + s)

/-- The text `"aa bbbb"`: chunk boundaries fall next to the space, which
`strip` then deletes from the emitted chunks. -/
def gapText : List Char := ['a', 'a', ' ', 'b', 'b', 'b', 'b']

/-- A marker-free text used to witness the amended C5. -/
def cleanDemo : List Char := ['a', 'b', 'c', 'd', 'e', 'f', 'g', 'h']

/-- A local retrieval result as produced by `search_knowledge` and
consumed by `ask_knowledge`. -/
structure LocalResult where
  title : List Char
  relevance : ℚ
  content : List Char
  raw_file : List Char
  base_id : List Char
deriving DecidableEq

/-- High tier: `relevance >= high_threshold`. -/
def classify_high (results : List LocalResult) (thr : ℚ) : List LocalResult :=
  results.filter fun r => decide (thr ≤ r.relevance)

/-- Low tier: everything below the threshold. -/
def classify_low (results : List LocalResult) (thr : ℚ) : List LocalResult :=
  results.filter fun r => decide (r.relevance < thr)

/-- The web-fallback trigger `web_fallback_enabled and len(high_quality) < min_local`. -/
def shouldFallback (enabled : Bool) (highCount minLocal : Nat) : Bool :=
  enabled && decide (highCount < minLocal)

/-- An item of the DuckDuckGo result list (`title`/`url`/`snippet`, plus
the optional fetched `content` read by `item.get("content", ...)`). -/
structure WebItem where
  title : List Char
  url : List Char
  snippet : List Char
  content : Option (List Char)
deriving DecidableEq

/-- A value stored in the dictionary returned by `search_and_summarize`. -/
inductive RespVal where
  | items : List WebItem → RespVal
  | page : Option (List Char) → RespVal
  | msg : List Char → RespVal
deriving DecidableEq

/-- The dictionary returned by `search_and_summarize`: its result list is
always stored under the key `"search_results"`. -/
def search_and_summarize_resp (srs : List WebItem) (fetchContent : Bool)
    (fetchOut : Except (List Char) (List Char)) : List (String × RespVal) :=
  if fetchContent && !srs.isEmpty then
    match fetchOut with
    | .ok page =>
      [("search_results", .items srs), ("top_content", .page (some page))]
    | .error e =>
      [("search_results", .items srs), ("top_content", .page none), ("error", .msg e)]
  else
    [("search_results", .items srs)]

/-- Model of Python `dict.get(key, default)`. -/
def dictGet (d : List (String × RespVal)) (k : String) (dflt : RespVal) : RespVal :=
  match d.find? (fun kv => kv.fst == k) with
  | some kv => kv.snd
  | none => dflt

/-- Interpret a response value as the iterable list of web items. -/
def getItems : RespVal → List WebItem
  | .items l => l
  | _ => []

/-- An entry of `web_results_used` in `ask_knowledge`. -/
structure WebEntry where
  title : List Char
  relevance : ℚ
  source : List Char
  snippet : List Char
  from_web : Bool
deriving DecidableEq

/-- The loop body `for item in web_resp.get("results", []): ...` — keep an
item when its snippet (`content` falling back to `snippet`, cut to 600) is
non-empty. -/
def buildWebEntries (items : List WebItem) : List WebEntry :=
  items.filterMap fun item =>
    let sn := (item.content.getD item.snippet).take 600
    if sn.isEmpty then none
    else some { title := item.title, relevance := 0, source := item.url,
                snippet := sn, from_web := true }

/-- The key `ask_knowledge` reads from the web response. -/
def resultsKey : String := "results"

/-- The web results actually used by `ask_knowledge`, reading the key
`"results"` from the response of the web call (or nothing when the call
raised). -/
def webUsedOf (outcome : Except (List Char) (List (String × RespVal))) : List WebEntry :=
  match outcome with
  | .error _ => []
  | .ok resp => buildWebEntries (getItems (dictGet resp resultsKey (.items [])))

/-- The whole web-fallback phase of `ask_knowledge`: attempted only when
the trigger condition holds; a failing call is caught and contributes
nothing. -/
def ask_web_phase (enabled : Bool) (highCount minLocal : Nat)
    (outcome : Except (List Char) (List (String × RespVal))) : List WebEntry :=
  if shouldFallback enabled highCount minLocal then webUsedOf outcome else []

/-- Tier label attached to each returned source. -/
inductive Quality where
  | high
  | low
  | web
deriving DecidableEq

/-- One entry of the `sources` list returned by `ask_knowledge`. -/
structure Source where
  title : List Char
  relevance : ℚ
  quality : Quality
  raw_file : List Char
  base_id : List Char
  snippet : List Char
  source_url : Option (List Char)
  from_web : Bool
deriving DecidableEq

/-- The source entry built for a high-tier local result. -/
def highSource (r : LocalResult) : Source :=
  { title := r.title, relevance := r.relevance, quality := .high,
    raw_file := r.raw_file, base_id := r.base_id,
    snippet := pyStrip (r.content.take 300), source_url := none, from_web := false }

/-- The source entry built for a low-tier local result. -/
def lowSource (r : LocalResult) : Source :=
  { title := r.title, relevance := r.relevance, quality := .low,
    raw_file := r.raw_file, base_id := r.base_id,
    snippet := pyStrip (r.content.take 200), source_url := none, from_web := false }

/-- The source entry built for a web result. -/
def webSource (w : WebEntry) : Source :=
  { title := w.title, relevance := w.relevance, quality := .web,
    raw_file := [], base_id := [], snippet := w.snippet,
    source_url := some w.source, from_web := true }

/-- The `sources` list of `ask_knowledge`: high tier first, then low tier,
then web entries. -/
def ask_sources (high low : List LocalResult) (web : List WebEntry) : List Source :=
  high.map highSource ++ low.map lowSource ++ web.map webSource

/-- The returned `web_fallback_used` field: `len(web_results_used) > 0`. -/
def web_fallback_used (web : List WebEntry) : Bool :=
  decide (0 < web.length)

/-- The returned `ai_knowledge_used` field, including the early-return path
taken when there is no context and `rag.ai_answer.enabled` is off (which
returns `False`). -/
def ai_knowledge_used_flag (highCount lowCount webCount minLocal : Nat)
    (allowLlmKnowledge aiAnswerEnabled : Bool) : Bool :=
  let hasContext := decide (0 < highCount + lowCount + webCount)
  if !hasContext && !aiAnswerEnabled then false
  else !hasContext || (allowLlmKnowledge && decide (highCount < minLocal))

/-- A web item with a non-empty snippet: the fallback would use it if the
response key matched. -/
def demoWebItem : WebItem :=
  { title := ['t'], url := ['u'], snippet := ['s'], content := none }

/-- The default high-relevance threshold 0.6. -/
def thr06 : ℚ := ⟨3, 5, by decide, by decide⟩

/-- A relevance of 0.59. -/
def rel059 : ℚ := ⟨59, 100, by decide, by decide⟩

/-- A bare local result carrying only a relevance score. -/
def resultAt (q : ℚ) : LocalResult :=
  { title := [], relevance := q, content := [], raw_file := [], base_id := [] }

/-- The metadata snapshot stored alongside every chunk. -/
structure ChunkMeta where
  title : List Char
  tags : List Char
  source : List Char
  base_id : List Char
  chunk_index : Nat
  total_chunks : Nat
  raw_file : List Char
deriving DecidableEq

/-- A chunk of the ChromaDB collection: its id, document text, the
embedding vector the index computed for the text when the chunk was added
(abstracted to an opaque value), and the metadata snapshot. -/
structure Chunk where
  cid : List Char
  document : List Char
  vector : Nat
  meta : ChunkMeta
deriving DecidableEq

/-- The persistent state touched by the store: the collection, the raw
markdown files in `data/raw` (named by base id) and the attachment files
in `data/attachments` (base id together with extension). -/
structure StoreState where
  col : List Chunk
  rawFiles : List (List Char)
  attachments : List (List Char × List Char)
deriving DecidableEq

/-- The attachment extensions recognised by `_delete_attachment`. -/
def knownExts : List (List Char) :=
  [['.', 'p', 'd', 'f'], ['.', 'h', 't', 'm', 'l'],
    ['.', 'd', 'o', 'c', 'x'], ['.', 'p', 'p', 't', 'x']]

/-- Model of `_delete_raw_markdown`: remove `data/raw/{base_id}.md`. -/
def delete_raw_markdown (st : StoreState) (bid : List Char) : StoreState :=
  { st with rawFiles := st.rawFiles.filter (fun f => !decide (f = bid)) }

/-- Model of `_delete_attachment`: remove `{base_id}{ext}` for each of the
recognised extensions. -/
def delete_attachment (st : StoreState) (bid : List Char) : StoreState :=
  { st with attachments :=
      st.attachments.filter (fun pr => !(decide (pr.fst = bid) && decide (pr.snd ∈ knownExts))) }

/-- Model of `_delete_all_files`: raw markdown plus attachments. -/
def delete_all_files (st : StoreState) (bid : List Char) : StoreState :=
  delete_attachment (delete_raw_markdown st bid) bid

/-- The result dictionary of `delete_knowledge` (message formatting
abstracted to a tag). -/
inductive DeleteResult where
  | notFound (kid : List Char)
  | deleted (kid : List Char) (chunkCount : Nat)
deriving DecidableEq

/-- Model of `delete_knowledge`: fetch the chunks whose snapshot references
the id; when there are none return the "not found" result, otherwise
delete those chunk ids from the collection and delete all files. -/
def delete_knowledge (st : StoreState) (kid : List Char) : StoreState × DeleteResult :=
  let found := st.col.filter fun c => decide (c.meta.base_id = kid)
  if found.isEmpty then (st, .notFound kid)
  else
    let ids := found.map Chunk.cid
    let st2 := { st with col := st.col.filter (fun c => !decide (c.cid ∈ ids)) }
    (delete_all_files st2 kid, .deleted kid ids.length)

/-- A store holding one item `k` with one chunk, its raw file and a pdf
attachment. -/
def demoChunk : Chunk :=
  { cid := ['k', '_', 'c', 'h', 'u', 'n', 'k', '0'], document := ['d'], vector := 7,
    meta := { title := ['t'], tags := ['g'], source := ['s'], base_id := ['k'],
              chunk_index := 0, total_chunks := 1, raw_file := ['r'] } }

def demoStore : StoreState :=
  { col := [demoChunk], rawFiles := [['k']],
    attachments := [(['k'], ['.', 'p', 'd', 'f'])] }

/-- The chunk-id suffix `_chunk{i}` used by the add path. -/
def chunkTag (i : Nat) : List Char :=
  ['_', 'c', 'h', 'u', 'n', 'k'] ++ Nat.toDigits 10 i

/-- Modelled from the spec: the metadata-only patch of `update` — on every
chunk whose snapshot references the id, replace the `title`/`tags` fields
with the supplied values (keeping a field when its option is empty) and
leave everything else, in particular text and vector, alone. -/
def metaPatch (kid : List Char) (title tags : Option (List Char)) (c : Chunk) : Chunk :=
  if c.meta.base_id = kid then
    { c with meta := { c.meta with title := title.getD c.meta.title,
                                   tags := tags.getD c.meta.tags } }
  else c

/-- Modelled from the spec: the chunks written by re-running the `add`
chunking/indexing path under an existing id — ids derived from the item id
and the ordinal, text from the chunker, a fresh embedding per chunk, and
the metadata snapshot on every chunk. -/
def mk_chunks (embed : List Char → Nat) (kid : List Char) (m0 : ChunkMeta)
    (title tags : Option (List Char)) (chunks : List (List Char)) : List Chunk :=
  chunks.enum.map fun p =>
    { cid := kid ++ chunkTag p.fst, document := p.snd, vector := embed p.snd,
      meta := { title := title.getD m0.title, tags := tags.getD m0.tags,
                source := m0.source, base_id := kid, chunk_index := p.fst,
                total_chunks := chunks.length, raw_file := m0.raw_file } }

/-- The previous metadata snapshot of the item (from its first chunk). -/
def updateBaseMeta (st : StoreState) (kid : List Char) : ChunkMeta :=
  (((st.col.filter fun c => decide (c.meta.base_id = kid)).head?).map Chunk.meta).getD
    { title := [], tags := [], source := [], base_id := kid, chunk_index := 0,
      total_chunks := 0, raw_file := [] }

/-- The result of an update. -/
inductive UpdateResult where
  | notFound
  | contentReplaced (chunkCount : Nat)
  | metaPatched (chunkCount : Nat)
deriving DecidableEq

/-- Modelled from the spec: `update_knowledge` is imported by
`tools/knowledge_tool.py` from `core.knowledge_store` but its
implementation is not part of `src/core/knowledge_store.py`; this
definition follows spec §4.2: `update(id, content?, title?, tags?)` — if
`content` is supplied, delete the item's existing chunks and re-run the
`add` chunking/indexing path under the same id (full content replace); if
only `title`/`tags` are supplied, patch the metadata snapshot on every
existing chunk without touching the index's vectors.  `none` propagates a
non-terminating chunker run. -/
def update_knowledge (embed : List Char → Nat) (cs ov fuel : Nat) (st : StoreState)
    (kid : List Char) (content title tags : Option (List Char)) :
    Option (StoreState × UpdateResult) :=
  let existing := st.col.filter fun c => decide (c.meta.base_id = kid)
  if existing.isEmpty then some (st, .notFound)
  else
    match content with
    | some newContent =>
      match split_text newContent cs ov fuel with
      | none => none
      | some chunks =>
        let rest := st.col.filter fun c => !decide (c.meta.base_id = kid)
        some ({ st with col :=
                  rest ++ mk_chunks embed kid (updateBaseMeta st kid) title tags chunks },
              .contentReplaced chunks.length)
    | none =>
      some ({ st with col := st.col.map (metaPatch kid title tags) },
            .metaPatched existing.length)

/-- Python `round(x, 4)` on exact values: round half to even at the fourth
decimal, computed on the numerator/denominator. -/
def halfEvenRoundInt (n : Int) (d : Nat) : Int :=
  let f := Int.fdiv n d
  let r2 := 2 * (n - f * d)
  if r2 < (d : Int) then f
  else if (d : Int) < r2 then f + 1
  else if f % 2 = 0 then f else f + 1

/-- Model of Python `round(x, 4)` as used for the relevance score. -/
def pyRound4 (x : ℚ) : ℚ :=
  mkRat (halfEvenRoundInt (x.num * 10000) x.den) 10000

/-- One raw row of `collection.query`: chunk id, document, metadata and
the index's native distance. -/
structure QItem where
  qid : List Char
  document : List Char
  meta : ChunkMeta
  distance : ℚ

/-- One formatted result of `search_knowledge`. -/
structure SearchResultEntry where
  rid : List Char
  content : List Char
  title : List Char
  tags : List Char
  source : List Char
  relevance : ℚ
  base_id : List Char
  raw_file : List Char

/-- Formatting of one query row: `relevance = round(1 - dist, 4)`. -/
def resultOfItem (it : QItem) : SearchResultEntry :=
  { rid := it.qid, content := it.document, title := it.meta.title,
    tags := it.meta.tags, source := it.meta.source,
    relevance := pyRound4 (1 - it.distance),
    base_id := it.meta.base_id, raw_file := it.meta.raw_file }

/-- Model of `search_knowledge`: the collection (abstracted to its `count`
and its `query` answer per requested size) is asked for
`n = min(top_k, config_top_k, max(count, 1))` nearest rows; an empty
collection short-circuits to an empty result list. -/
def search_knowledge (count cfgTopK : Nat) (query : Nat → List QItem)
    (topK : Nat) : List SearchResultEntry :=
  let n := min topK (min cfgTopK (max count 1))
  if count = 0 then []
  else (query n).map resultOfItem

/-- The exactly representable distance 1/32 = 0.03125. -/
def dist132 : ℚ := ⟨1, 32, by decide, by decide⟩

/-- 31/32, the exact value of `1 - 1/32`. -/
def q3132 : ℚ := ⟨31, 32, by decide, by decide⟩

/-- The distance 3/2, whose relevance is negative. -/
def dist32 : ℚ := ⟨3, 2, by decide, by decide⟩

/-- Negative one half. -/
def qneghalf : ℚ := ⟨-1, 2, by decide, by decide⟩

/-- A one-row index at distance 1/32. -/
def demoQuery : Nat → List QItem :=
  fun n => ([{ qid := ['q'], document := ['d'], meta := demoChunk.meta,
               distance := dist132 }] : List QItem).take n

/-! ## Theorems -/

theorem splitLoop_stuck (fuel : Nat) :
    splitLoop nonTermText 10 9 fuel (-3) = none := by
  induction fuel with
  | zero => rfl
  | succ n ih =>
    have hb : windowBoundary nonTermText 10 (-3) = 6 := by decide
    simp only [splitLoop, hb]
    norm_num
    rw [ih]
    decide

/-- C3: the spec claims `split_text` always makes forward progress
(next window start strictly greater than the previous one) for every
`chunkSize > 0`, `0 ≤ chunkOverlap < chunkSize`.  The code violates this:
on `"aaaaa。" + "a"*20` with `chunk_size = 10`, `chunk_overlap = 9` the
first window ends at the natural break 6 and the next start is
`6 - 9 = -3 < 0`; from `-3` the loop reproduces start `-3` forever, so
`split_text` never terminates (for every fuel the loop is still running). -/
theorem split_text_progress_fails :
    nextStart nonTermText 10 9 0 = -3 ∧
    nextStart nonTermText 10 9 (-3) = -3 ∧
    ∀ fuel : Nat, split_text nonTermText 10 9 fuel = none := by
  refine ⟨by decide, by decide, ?_⟩
  intro fuel
  have hs : pyStrip nonTermText = nonTermText := by decide
  cases fuel with
  | zero => simp [split_text, hs]; decide
  | succ n =>
    have hb : windowBoundary nonTermText 10 0 = 6 := by decide
    have hlen : nonTermText.length = 26 := by decide
    simp only [split_text, hs, hlen]
    norm_num
    rw [if_neg (by decide)]
    simp only [splitLoop, hb]
    norm_num
    rw [splitLoop_stuck n]
    decide

theorem rfindFrom_spec (t pat : List Char) (lo : Nat) : ∀ p : Nat,
    (rfindFrom t pat lo p = -1 ∧ ∀ q, q ≤ p → lo ≤ q → matchesAt t pat q = false) ∨
    (∃ q : Nat, rfindFrom t pat lo p = (q : Int) ∧ q ≤ p ∧ lo ≤ q ∧ matchesAt t pat q = true ∧
      ∀ r, r ≤ p → lo ≤ r → matchesAt t pat r = true → r ≤ q) := by
  intro p
  induction p with
  | zero =>
    by_cases h1 : lo = 0
    · by_cases h2 : matchesAt t pat 0 = true
      · right
        refine ⟨0, ?_, le_refl 0, by omega, h2, ?_⟩
        · simp [rfindFrom, h1, h2]
        · intro r hr _ _
          omega
      · left
        refine ⟨?_, ?_⟩
        · simp [rfindFrom, h2]
        · intro q hq hlq
          have hq0 : q = 0 := by omega
          subst hq0
          simpa using h2
    · left
      refine ⟨?_, ?_⟩
      · simp [rfindFrom, h1]
      · intro q hq hlq
        exact absurd (by omega : lo = 0) h1
  | succ p ih =>
    by_cases hc : lo ≤ p + 1 ∧ matchesAt t pat (p + 1) = true
    · right
      refine ⟨p + 1, ?_, le_refl _, hc.1, hc.2, ?_⟩
      · simp [rfindFrom, hc.1, hc.2]
      · intro r hr _ _
        omega
    · have hstep : rfindFrom t pat lo (p + 1) = rfindFrom t pat lo p := by
        rcases Decidable.not_and_iff_or_not.mp hc with h | h
        · simp [rfindFrom, h]
        · simp only [rfindFrom]
          rw [if_neg]
          simp only [Bool.and_eq_true, decide_eq_true_eq]
          tauto
      rcases ih with ⟨h1, h2⟩ | ⟨q, hq, hqp, hlq, hm, hmax⟩
      · left
        refine ⟨by rw [hstep, h1], ?_⟩
        intro q hq hlq
        rcases Nat.lt_or_ge q (p + 1) with h | h
        · exact h2 q (by omega) hlq
        · have hq1 : q = p + 1 := by omega
          subst hq1
          by_contra hmq
          exact hc ⟨hlq, by simpa using hmq⟩
      · right
        refine ⟨q, by rw [hstep, hq], by omega, hlq, hm, ?_⟩
        intro r hr hlr hmr
        rcases Nat.lt_or_ge r (p + 1) with h | h
        · exact hmax r (by omega) hlr hmr
        · have hr1 : r = p + 1 := by omega
          subst hr1
          exact absurd ⟨hlr, hmr⟩ hc

theorem pyIdx_coe (n k : Nat) (h : k ≤ n) : pyIdx n (k : Int) = k := by
  rw [pyIdx, if_neg (by omega : ¬ ((k : Int) < 0))]
  simp only [Int.toNat_ofNat]
  omega

theorem pyRfind_spec (t pat : List Char) (lo hi : Nat)
    (hlo : lo ≤ t.length) (hhi : hi ≤ t.length) :
    (pyRfind t pat (lo : Int) (hi : Int) = -1 ∧ ∀ p, occursAt t pat lo hi p = false) ∨
    (∃ p : Nat, pyRfind t pat (lo : Int) (hi : Int) = (p : Int) ∧ occursAt t pat lo hi p = true ∧
      ∀ q, occursAt t pat lo hi q = true → q ≤ p) := by
  unfold pyRfind
  rw [pyIdx_coe _ _ hlo, pyIdx_coe _ _ hhi]
  by_cases hph : pat.length ≤ hi
  · rw [if_pos hph]
    rcases rfindFrom_spec t pat lo (hi - pat.length) with ⟨he, hnone⟩ | ⟨q, heq, hqle, hql, hm, hmax⟩
    · left
      refine ⟨he, fun p => ?_⟩
      simp only [occursAt, Bool.and_eq_false_iff, decide_eq_false_iff_not]
      by_cases h1 : lo ≤ p
      · by_cases h2 : p + pat.length ≤ hi
        · exact Or.inr (hnone p (by omega) h1)
        · exact Or.inl (Or.inr h2)
      · exact Or.inl (Or.inl h1)
    · right
      refine ⟨q, heq, ?_, ?_⟩
      · simp only [occursAt, Bool.and_eq_true, decide_eq_true_eq]
        exact ⟨⟨hql, by omega⟩, hm⟩
      · intro r hr
        simp only [occursAt, Bool.and_eq_true, decide_eq_true_eq] at hr
        exact hmax r (by omega) hr.1.1 hr.2
  · rw [if_neg hph]
    left
    refine ⟨rfl, fun p => ?_⟩
    simp only [occursAt, Bool.and_eq_false_iff, decide_eq_false_iff_not]
    exact Or.inl (Or.inr (by omega))

theorem stepBreak_ge (t : List Char) (a b best : Int) (bc : List Char) :
    best ≤ stepBreak t a b best bc := by
  simp only [stepBreak]
  split <;> omega

theorem foldl_stepBreak_ge (t : List Char) (a b : Int) (ms : List (List Char)) :
    ∀ best : Int, best ≤ ms.foldl (stepBreak t a b) best := by
  induction ms with
  | nil => intro best; simp
  | cons m ms ih =>
    intro best
    exact le_trans (stepBreak_ge t a b best m) (ih _)

theorem foldl_stepBreak_shape (t : List Char) (lo hi : Nat)
    (hlo : lo ≤ t.length) (hhi : hi ≤ t.length) :
    ∀ (ms : List (List Char)), (∀ m ∈ ms, m ∈ breakChars) → ∀ best : Int,
    (best = -1 ∨ ∃ bc, bc ∈ breakChars ∧ ∃ q : Nat, occursAt t bc lo hi q = true ∧
        best = (q : Int) + bc.length) →
    (ms.foldl (stepBreak t (lo : Int) (hi : Int)) best = -1 ∨
      ∃ bc, bc ∈ breakChars ∧ ∃ q : Nat, occursAt t bc lo hi q = true ∧
        ms.foldl (stepBreak t (lo : Int) (hi : Int)) best = (q : Int) + bc.length) := by
  intro ms
  induction ms with
  | nil => intro _ best h; simpa using h
  | cons m ms ih =>
    intro hmem best hb
    simp only [List.foldl_cons]
    refine ih (fun x hx => hmem x (List.mem_cons_of_mem m hx)) _ ?_
    simp only [stepBreak]
    by_cases hlt : best < pyRfind t m (lo : Int) (hi : Int)
    · rw [if_pos hlt]
      have hge : (-1 : Int) ≤ best := by
        rcases hb with h | ⟨bc, _, q, _, h⟩
        · omega
        · have : (0 : Int) ≤ (q : Int) + bc.length := by positivity
          omega
      rcases pyRfind_spec t m lo hi hlo hhi with ⟨he, _⟩ | ⟨p, hp, hocc, _⟩
      · omega
      · right
        exact ⟨m, hmem m (List.mem_cons_self m ms), p, hocc, by rw [hp]⟩
    · rw [if_neg hlt]
      exact hb

theorem foldl_stepBreak_dom (t : List Char) (lo hi : Nat)
    (hlo : lo ≤ t.length) (hhi : hi ≤ t.length) :
    ∀ (ms : List (List Char)) (best : Int), ∀ m ∈ ms, ∀ q, occursAt t m lo hi q = true →
    (q : Int) ≤ ms.foldl (stepBreak t (lo : Int) (hi : Int)) best := by
  intro ms
  induction ms with
  | nil => intro best m hm; exact absurd hm (List.not_mem_nil m)
  | cons m' ms ih =>
    intro best m hm q hocc
    rcases List.mem_cons.mp hm with he | hm'
    · subst he
      simp only [List.foldl_cons]
      rcases pyRfind_spec t m lo hi hlo hhi with ⟨_, hall⟩ | ⟨p, hp, _, hmax⟩
      · rw [hall q] at hocc
        exact absurd hocc (by simp)
      · have hqp : q ≤ p := hmax q hocc
        have hfold := foldl_stepBreak_ge t (lo : Int) (hi : Int) ms (stepBreak t lo hi best m)
        have hstep : (q : Int) ≤ stepBreak t (lo : Int) (hi : Int) best m := by
          simp only [stepBreak, hp]
          split
          · have : (0 : Int) ≤ (m.length : Int) := by positivity
            omega
          · omega
        exact le_trans hstep hfold
    · simp only [List.foldl_cons]
      exact ih _ m hm' q hocc

theorem breakChars_len : ∀ bc ∈ breakChars, 0 < bc.length := by decide

/-- C4 (amended): for a window whose naive end does not pass the end of the
text, if no natural-break marker occurs (fully contained) in the half-window
`[start + chunkSize/2, start + chunkSize)`, the boundary stays at the hard
cut `start + chunkSize`; if some marker occurs there, the boundary chosen by
the code is the end position (`start of occurrence + marker length`) of one
of the in-range occurrences, and it is at least the start position of every
in-range occurrence — but it need not be the occurrence end furthest to the
right, because a later-priority marker only replaces the current best when
its right-most occurrence starts strictly beyond the current best end
(`if pos > best_break`). -/
theorem windowBoundary_break_spec (t : List Char) (cs start : Nat) (hcs : 0 < cs)
    (hwin : start + cs ≤ t.length) :
    ((∀ bc ∈ breakChars, ∀ p, occursAt t bc (start + cs / 2) (start + cs) p = false) →
        windowBoundary t cs (start : Int) = ((start : Int) + (cs : Int))) ∧
    (∀ bc ∈ breakChars, ∀ p, occursAt t bc (start + cs / 2) (start + cs) p = true →
        (∃ bc', bc' ∈ breakChars ∧ ∃ q : Nat, occursAt t bc' (start + cs / 2) (start + cs) q = true ∧
            windowBoundary t cs (start : Int) = (q : Int) + bc'.length) ∧
        ((p : Nat) : Int) ≤ windowBoundary t cs (start : Int)) := by
  have hlo : start + cs / 2 ≤ t.length := by
    have := Nat.div_le_self cs 2
    omega
  have hhi : start + cs ≤ t.length := hwin
  have hargs : windowBoundary t cs (start : Int) =
      (if (start : Int) < bestBreakCalc t ((start + cs / 2 : Nat) : Int) ((start + cs : Nat) : Int)
        then bestBreakCalc t ((start + cs / 2 : Nat) : Int) ((start + cs : Nat) : Int)
        else ((start : Int) + (cs : Int))) := by
    unfold windowBoundary
    push_cast
    rfl
  constructor
  · intro hnone
    have hB : bestBreakCalc t ((start + cs / 2 : Nat) : Int) ((start + cs : Nat) : Int) = -1 := by
      unfold bestBreakCalc
      rcases foldl_stepBreak_shape t (start + cs / 2) (start + cs) hlo hhi breakChars
          (fun x hx => hx) (-1) (Or.inl rfl) with h | ⟨bc, hbc, q, hocc, _⟩
      · exact h
      · rw [hnone bc hbc q] at hocc
        exact absurd hocc (by simp)
    rw [hargs, hB, if_neg (by omega)]
  · intro bc hbc p hocc
    have hdom : (p : Int) ≤ bestBreakCalc t ((start + cs / 2 : Nat) : Int) ((start + cs : Nat) : Int) :=
      foldl_stepBreak_dom t (start + cs / 2) (start + cs) hlo hhi breakChars (-1) bc hbc p hocc
    rcases foldl_stepBreak_shape t (start + cs / 2) (start + cs) hlo hhi breakChars
        (fun x hx => hx) (-1) (Or.inl rfl) with h | ⟨bc', hbc', q, hocc', heq⟩
    · unfold bestBreakCalc at hdom
      rw [h] at hdom
      omega
    · have hstart : (start : Int) < bestBreakCalc t ((start + cs / 2 : Nat) : Int) ((start + cs : Nat) : Int) := by
        unfold bestBreakCalc
        rw [heq]
        have hq : start + cs / 2 ≤ q := by
          simp only [occursAt, Bool.and_eq_true, decide_eq_true_eq] at hocc'
          exact hocc'.1.1
        have hlen : 0 < bc'.length := breakChars_len bc' hbc'
        have h1 : ((start + cs / 2 : Nat) : Int) ≤ (q : Int) := by exact_mod_cast hq
        have h2 : (1 : Int) ≤ (bc'.length : Int) := by exact_mod_cast hlen
        have h3 : ((start : Nat) : Int) ≤ ((start + cs / 2 : Nat) : Int) := by
          push_cast
          omega
        omega
      refine ⟨⟨bc', hbc', q, hocc', ?_⟩, ?_⟩
      · rw [hargs, if_pos hstart]
        exact heq
      · rw [hargs, if_pos hstart]
        exact hdom

/-- C4 counterexample: the claim says the occurrence whose end is furthest
right is chosen; here the boundary chosen is 8, yet the marker `。` occurs
in range at 8 with end 9 > 8. -/
theorem windowBoundary_rightmost_end_fails :
    windowBoundary breakTieText 10 0 = 8 ∧
    occursAt breakTieText ['。'] 5 10 8 = true ∧
    windowBoundary breakTieText 10 0 < (8 : Int) + (['。'] : List Char).length := by
  decide

theorem windowBoundary_break_spec_witness :
    (∃ bc', bc' ∈ breakChars ∧ ∃ q : Nat, occursAt breakTieText bc' 5 10 q = true ∧
        windowBoundary breakTieText 10 ((0 : Nat) : Int) = (q : Int) + bc'.length) ∧
    ((8 : Nat) : Int) ≤ windowBoundary breakTieText 10 ((0 : Nat) : Int) :=
  (windowBoundary_break_spec breakTieText 10 0 (by decide) (by decide)).2
    ['。'] (by decide) 8 (by decide)

theorem clean_no_space (t : List Char) (hclean : cleanText t = true) :
    ∀ c ∈ t, isPySpace c = false := by
  intro c hc
  have h := List.all_eq_true.mp hclean c hc
  simp only [markerFreeChar, Bool.and_eq_true, Bool.not_eq_true'] at h
  exact h.1

theorem clean_matches_false (t : List Char) (hclean : cleanText t = true) :
    ∀ bc ∈ breakChars, ∀ p, matchesAt t bc p = false := by
  intro bc hbc p
  by_contra hm
  have hm' : (t.drop p).take bc.length = bc := by
    have h1 : matchesAt t bc p = true := by simpa using hm
    simpa [matchesAt] using h1
  have hx : ∃ c, bc.head? = some c ∧ markerFreeChar c = false := by
    simp only [breakChars, List.mem_cons, List.not_mem_nil, or_false] at hbc
    rcases hbc with rfl | rfl | rfl | rfl | rfl | rfl | rfl | rfl | rfl <;>
      exact ⟨_, rfl, by decide⟩
  obtain ⟨c, hc1, hc2⟩ := hx
  cases bc with
  | nil => simp at hc1
  | cons b bs =>
    simp only [List.head?_cons, Option.some.injEq] at hc1
    subst hc1
    cases hd : t.drop p with
    | nil => rw [hd] at hm'; simp at hm'
    | cons x xs =>
      rw [hd] at hm'
      simp only [List.length_cons, List.take_succ_cons, List.cons.injEq] at hm'
      have hcx : b ∈ t := by
        refine List.drop_subset p t ?_
        rw [hd, ← hm'.1]
        exact List.mem_cons_self _ _
      have hall := List.all_eq_true.mp hclean b hcx
      rw [hc2] at hall
      exact Bool.false_ne_true hall

theorem rfindFrom_none (t pat : List Char) (lo : Nat)
    (h : ∀ q, matchesAt t pat q = false) : ∀ p, rfindFrom t pat lo p = -1 := by
  intro p
  induction p with
  | zero => simp [rfindFrom, h 0]
  | succ n ih => simp [rfindFrom, h (n + 1), ih]

theorem pyRfind_none (t pat : List Char) (a b : Int)
    (h : ∀ q, matchesAt t pat q = false) : pyRfind t pat a b = -1 := by
  simp only [pyRfind]
  split
  · exact rfindFrom_none t pat _ h _
  · rfl

theorem foldl_stepBreak_all_neg (t : List Char) (a b : Int) :
    ∀ ms : List (List Char), (∀ m ∈ ms, pyRfind t m a b = -1) →
    ms.foldl (stepBreak t a b) (-1) = -1 := by
  intro ms
  induction ms with
  | nil => intro _; rfl
  | cons m ms ih =>
    intro h
    simp only [List.foldl_cons]
    have hstep : stepBreak t a b (-1) m = -1 := by
      simp [stepBreak, h m (List.mem_cons_self m ms)]
    rw [hstep]
    exact ih fun x hx => h x (List.mem_cons_of_mem m hx)

theorem windowBoundary_clean (t : List Char) (hclean : cleanText t = true)
    (cs : Nat) (start : Int) (hstart : 0 ≤ start) :
    windowBoundary t cs start = start + (cs : Int) := by
  have hB : bestBreakCalc t (start + ((cs / 2 : Nat) : Int)) (start + (cs : Int)) = -1 :=
    foldl_stepBreak_all_neg t _ _ breakChars fun m hm =>
      pyRfind_none t m _ _ (clean_matches_false t hclean m hm)
  simp only [windowBoundary, hB]
  rw [if_neg (by omega)]

theorem pySlice_nat (t : List Char) (a b : Nat) (ha : a ≤ t.length) (hb : b ≤ t.length) :
    pySlice t (a : Int) (b : Int) = (t.drop a).take (b - a) := by
  simp only [pySlice]
  rw [pyIdx_coe _ _ ha, pyIdx_coe _ _ hb, List.drop_take]

theorem dropWhile_of_all_neg {p : Char → Bool} (l : List Char)
    (h : ∀ c ∈ l, p c = false) : l.dropWhile p = l := by
  cases l with
  | nil => rfl
  | cons x xs => simp [List.dropWhile, h x (List.mem_cons_self x xs)]

theorem pyStrip_of_no_space (l : List Char) (h : ∀ c ∈ l, isPySpace c = false) :
    pyStrip l = l := by
  unfold pyStrip
  rw [dropWhile_of_all_neg l h,
    dropWhile_of_all_neg _ (fun c hc => h c (by simpa using hc)),
    List.reverse_reverse]

theorem splitLoop_clean (t : List Char) (cs ov : Nat) (hcs : 0 < cs) (hov : ov < cs)
    (hclean : cleanText t = true) :
    ∀ fuel start : Nat, start < t.length → t.length ≤ start + fuel →
    splitLoop t cs ov fuel (start : Int) = some (hardWindows t cs (cs - ov) fuel start) := by
  intro fuel
  induction fuel with
  | zero => intro start h1 h2; omega
  | succ n ih =>
    intro start h1 h2
    have hspace : ∀ c ∈ t, isPySpace c = false := clean_no_space t hclean
    have hsub : ∀ (l : List Char), l ⊆ t → pyStrip l = l := fun l hl =>
      pyStrip_of_no_space l fun c hc => hspace c (hl hc)
    have hwb := windowBoundary_clean t hclean cs (start : Int) (by positivity)
    simp only [splitLoop, hwb]
    rw [if_pos (by exact_mod_cast h1)]
    by_cases hbig : t.length ≤ start + cs
    · rw [if_pos (by exact_mod_cast hbig)]
      have hslice : pySlice t (start : Int) ((t.length : Nat) : Int) = t.drop start := by
        rw [pySlice_nat t start t.length (by omega) (le_refl _)]
        simp [List.take_length]
      rw [hslice, hsub _ (List.drop_subset start t)]
      rw [hardWindows, if_pos hbig]
    · rw [if_neg (by exact_mod_cast hbig)]
      have hcast : (start : Int) + (cs : Int) = ((start + cs : Nat) : Int) := by push_cast; rfl
      have hslice : pySlice t (start : Int) ((start + cs : Nat) : Int) = (t.drop start).take cs := by
        rw [pySlice_nat t start (start + cs) (by omega) (by omega)]
        congr 1
        omega
      rw [hcast, hslice, hsub _ (fun c hc => List.drop_subset start t (List.take_subset cs _ hc))]
      have hne : ((t.drop start).take cs).isEmpty = false := by
        have hlen : ((t.drop start).take cs).length = cs := by
          simp only [List.length_take, List.length_drop]
          omega
        cases hl : (t.drop start).take cs with
        | nil => rw [hl] at hlen; simp at hlen; omega
        | cons x xs => rfl
      rw [hne]
      have hcast2 : ((start + cs : Nat) : Int) - (ov : Int) = ((start + (cs - ov) : Nat) : Int) := by
        push_cast
        omega
      rw [hcast2, ih (start + (cs - ov)) (by omega) (by omega)]
      rw [hardWindows, if_neg hbig]
      simp

theorem hardWindows_flat_drop (t : List Char) (cs ov : Nat) (hov : ov < cs) :
    ∀ fuel start : Nat, start < t.length → t.length ≤ start + fuel →
    ((hardWindows t cs (cs - ov) fuel start).map (fun d => d.drop ov)).flatten =
      t.drop (start + ov) := by
  intro fuel
  induction fuel with
  | zero => intro start h1 h2; omega
  | succ n ih =>
    intro start h1 h2
    by_cases hbig : t.length ≤ start + cs
    · rw [hardWindows, if_pos hbig]
      simp only [List.map_cons, List.map_nil, List.flatten_cons, List.flatten_nil,
        List.append_nil]
      rw [List.drop_drop]
    · rw [hardWindows, if_neg hbig]
      simp only [List.map_cons, List.flatten_cons]
      rw [ih (start + (cs - ov)) (by omega) (by omega)]
      rw [List.drop_take, List.drop_drop]
      have h4 : start + (cs - ov) + ov = start + ov + (cs - ov) := by omega
      rw [h4]
      have h6 : List.drop (start + ov + (cs - ov)) t =
          List.drop (cs - ov) (List.drop (start + ov) t) :=
        (List.drop_drop (cs - ov) (start + ov) t).symm
      rw [h6]
      exact List.take_append_drop (cs - ov) (t.drop (start + ov))

theorem hardWindows_rejoin (t : List Char) (cs ov : Nat) (hov : ov < cs) :
    ∀ fuel start : Nat, start < t.length → t.length ≤ start + fuel →
    rejoinOverlap ov (hardWindows t cs (cs - ov) fuel start) = t.drop start := by
  intro fuel
  cases fuel with
  | zero => intro start h1 h2; omega
  | succ n =>
    intro start h1 h2
    by_cases hbig : t.length ≤ start + cs
    · rw [hardWindows, if_pos hbig]
      simp [rejoinOverlap]
    · rw [hardWindows, if_neg hbig]
      simp only [rejoinOverlap]
      rw [hardWindows_flat_drop t cs ov hov n (start + (cs - ov)) (by omega) (by omega)]
      have h4 : start + (cs - ov) + ov = start + cs := by omega
      rw [h4]
      have h5 : t.drop (start + cs) = (t.drop start).drop cs := by
        rw [List.drop_drop]
      rw [h5]
      exact List.take_append_drop cs (t.drop start)

theorem hardWindows_head_take (t : List Char) (cs ov : Nat) (hov : ov < cs) :
    ∀ fuel start : Nat, start < t.length → t.length ≤ start + fuel → start + ov ≤ t.length →
    ∃ h rest, hardWindows t cs (cs - ov) fuel start = h :: rest ∧
      h.take ov = (t.drop start).take ov ∧ ov ≤ h.length := by
  intro fuel
  cases fuel with
  | zero => intro start h1 h2; omega
  | succ n =>
    intro start h1 h2 h3
    by_cases hbig : t.length ≤ start + cs
    · refine ⟨t.drop start, [], by rw [hardWindows, if_pos hbig], rfl, ?_⟩
      rw [List.length_drop]
      omega
    · refine ⟨(t.drop start).take cs, _, by rw [hardWindows, if_neg hbig], ?_, ?_⟩
      · rw [List.take_take, min_eq_left (by omega)]
      · rw [List.length_take, List.length_drop]
        omega

theorem hardWindows_adjacent (t : List Char) (cs ov : Nat) (_hcs : 0 < cs) (hov : ov < cs) :
    ∀ fuel start : Nat, start < t.length → t.length ≤ start + fuel →
    adjacentOk (overlapOk ov) (hardWindows t cs (cs - ov) fuel start) = true := by
  intro fuel
  induction fuel with
  | zero => intro start h1 h2; omega
  | succ n ih =>
    intro start h1 h2
    by_cases hbig : t.length ≤ start + cs
    · rw [hardWindows, if_pos hbig]
      rfl
    · rw [hardWindows, if_neg hbig]
      obtain ⟨h, rest, hrw, htake, hlen⟩ :=
        hardWindows_head_take t cs ov hov n (start + (cs - ov)) (by omega) (by omega) (by omega)
      rw [hrw]
      have hchunklen : ((t.drop start).take cs).length = cs := by
        simp only [List.length_take, List.length_drop]
        omega
      have hpair : overlapOk ov ((t.drop start).take cs) h = true := by
        simp only [overlapOk, Bool.and_eq_true, decide_eq_true_eq]
        refine ⟨⟨by omega, hlen⟩, ?_⟩
        rw [hchunklen, htake, List.drop_take, List.drop_drop]
        congr 1
        omega
      show (overlapOk ov ((t.drop start).take cs) h && adjacentOk (overlapOk ov) (h :: rest)) = true
      rw [hpair, ← hrw, ih (start + (cs - ov)) (by omega) (by omega)]
      rfl

/-- C5 (amended): the claim's coverage/overlap property fails in general
because emitted chunks are stripped of boundary whitespace (see the
counterexample below), but it holds whenever the text contains no
whitespace and no natural-break characters — exactly the situation in
which no natural break point can shorten a window: the chunks of
`split_text` then rejoin (dropping the first `chunkOverlap` characters of
every chunk after the first) to the original text with no gaps, and every
adjacent pair of chunks shares a suffix/prefix of length exactly
`chunkOverlap`. -/
theorem split_text_clean_covers (t : List Char) (cs ov : Nat)
    (hcs : 0 < cs) (hov : ov < cs) (hclean : cleanText t = true) :
    ∃ chunks, split_text t cs ov t.length = some chunks ∧
      rejoinOverlap ov chunks = t ∧ adjacentOk (overlapOk ov) chunks = true := by
  have hs : pyStrip t = t := pyStrip_of_no_space t (clean_no_space t hclean)
  simp only [split_text, hs]
  by_cases h0 : t.isEmpty
  · refine ⟨[], by rw [if_pos h0], ?_, rfl⟩
    rw [rejoinOverlap]
    cases t with
    | nil => rfl
    | cons x xs => simp at h0
  · rw [if_neg (by simpa using h0)]
    by_cases h1 : t.length ≤ cs
    · refine ⟨[t], by rw [if_pos h1], ?_, rfl⟩
      simp [rejoinOverlap]
    · rw [if_neg h1]
      have hlen : 0 < t.length := by
        cases t with
        | nil => simp at h0
        | cons x xs => simp
      refine ⟨hardWindows t cs (cs - ov) t.length 0, ?_, ?_, ?_⟩
      · have := splitLoop_clean t cs ov hcs hov hclean t.length 0 hlen (by omega)
        simpa using this
      · have := hardWindows_rejoin t cs ov hov t.length 0 hlen (by omega)
        simpa using this
      · exact hardWindows_adjacent t cs ov hcs hov t.length 0 hlen (by omega)

/-- C5 counterexample: on `"aa bbbb"` with `chunk_size = 3`,
`chunk_overlap = 1` the produced chunks are `["aa", "bb", "bbb"]` although
no natural-break marker occurs anywhere in the text (so no window was
shortened by a break point): rejoining with the overlap does not
reconstruct the (already trimmed) text — the space is lost — and the first
two adjacent chunks do not share a suffix/prefix of length 1. -/
theorem split_text_cover_fails :
    pyStrip gapText = gapText ∧
    split_text gapText 3 1 7 = some [['a', 'a'], ['b', 'b'], ['b', 'b', 'b']] ∧
    (∀ bc ∈ breakChars, ∀ p, p < gapText.length → matchesAt gapText bc p = false) ∧
    rejoinOverlap 1 [['a', 'a'], ['b', 'b'], ['b', 'b', 'b']] ≠ gapText ∧
    overlapOk 1 ['a', 'a'] ['b', 'b'] = false := by
  decide

theorem split_text_clean_covers_witness :
    ∃ chunks, split_text cleanDemo 3 1 cleanDemo.length = some chunks ∧
      rejoinOverlap 1 chunks = cleanDemo ∧ adjacentOk (overlapOk 1) chunks = true :=
  split_text_clean_covers cleanDemo 3 1 (by decide) (by decide) (by decide)

/-- C1: `ask_knowledge` reads the key `"results"` from the response of
`search_and_summarize`, which stores its list under `"search_results"`;
hence for every question outcome, configuration and web-search result the
list of web results used is empty, `web_fallback_used` is `False`, and no
returned source carries `from_web = True` — even when the fallback
trigger holds and the web search succeeds. -/
theorem ask_knowledge_web_never_used (results : List LocalResult) (thr : ℚ)
    (enabled : Bool) (minLocal : Nat) (srs : List WebItem) (fetchContent : Bool)
    (fetchOut : Except (List Char) (List Char)) :
    webUsedOf (.ok (search_and_summarize_resp srs fetchContent fetchOut)) = [] ∧
    ask_web_phase enabled (classify_high results thr).length minLocal
      (.ok (search_and_summarize_resp srs fetchContent fetchOut)) = [] ∧
    web_fallback_used (ask_web_phase enabled (classify_high results thr).length minLocal
      (.ok (search_and_summarize_resp srs fetchContent fetchOut))) = false ∧
    ∀ s ∈ ask_sources (classify_high results thr) (classify_low results thr)
        (ask_web_phase enabled (classify_high results thr).length minLocal
          (.ok (search_and_summarize_resp srs fetchContent fetchOut))),
      s.from_web = false := by
  have hfind : (search_and_summarize_resp srs fetchContent fetchOut).find?
      (fun kv => kv.fst == resultsKey) = none := by
    unfold search_and_summarize_resp
    split
    · split <;> rfl
    · rfl
  have hused : webUsedOf (.ok (search_and_summarize_resp srs fetchContent fetchOut)) = [] := by
    simp [webUsedOf, dictGet, hfind, getItems, buildWebEntries]
  have hphase : ask_web_phase enabled (classify_high results thr).length minLocal
      (.ok (search_and_summarize_resp srs fetchContent fetchOut)) = [] := by
    unfold ask_web_phase
    split
    · exact hused
    · rfl
  refine ⟨hused, hphase, ?_, ?_⟩
  · rw [hphase]
    rfl
  · intro s hs
    rw [hphase] at hs
    simp only [ask_sources, List.map_nil, List.append_nil, List.mem_append,
      List.mem_map] at hs
    rcases hs with ⟨r, _, rfl⟩ | ⟨r, _, rfl⟩ <;> rfl

theorem ask_knowledge_web_never_used_witness :
    webUsedOf (.ok (search_and_summarize_resp [demoWebItem] true (.ok []))) = [] ∧
    ask_web_phase true (classify_high [] 0).length 1
      (.ok (search_and_summarize_resp [demoWebItem] true (.ok []))) = [] ∧
    web_fallback_used (ask_web_phase true (classify_high [] 0).length 1
      (.ok (search_and_summarize_resp [demoWebItem] true (.ok [])))) = false ∧
    ∀ s ∈ ask_sources (classify_high [] 0) (classify_low [] 0)
        (ask_web_phase true (classify_high [] 0).length 1
          (.ok (search_and_summarize_resp [demoWebItem] true (.ok [])))),
      s.from_web = false :=
  ask_knowledge_web_never_used [] 0 true 1 [demoWebItem] true (.ok [])

/-- C6: relevance classification is a total and disjoint partition of the
local results — every result with `relevance ≥ threshold` is high tier and
every other result is low tier, each result landing in exactly one tier;
the boundary is inclusive on the high side: with threshold 0.6 a result at
0.60 is high and one at 0.59 is low. -/
theorem classify_partition (results : List LocalResult) (thr : ℚ) :
    (classify_high results thr).length + (classify_low results thr).length
        = results.length ∧
    (∀ r ∈ results,
      (r ∈ classify_high results thr ∨ r ∈ classify_low results thr) ∧
      ¬(r ∈ classify_high results thr ∧ r ∈ classify_low results thr)) ∧
    (∀ r ∈ classify_high results thr, thr ≤ r.relevance) ∧
    (∀ r ∈ classify_low results thr, r.relevance < thr) ∧
    classify_high [resultAt thr06] thr06 = [resultAt thr06] ∧
    classify_low [resultAt rel059] thr06 = [resultAt rel059] ∧
    classify_high [resultAt rel059] thr06 = [] := by
  refine ⟨?_, ?_, ?_, ?_, by decide, by decide, by decide⟩
  · induction results with
    | nil => rfl
    | cons r rs ih =>
      by_cases h : thr ≤ r.relevance
      · rw [classify_high, List.filter_cons_of_pos (by simpa using h),
          classify_low, List.filter_cons_of_neg (by simp [not_lt.mpr h])]
        simp only [List.length_cons]
        rw [classify_high, classify_low] at ih
        omega
      · rw [classify_high, List.filter_cons_of_neg (by simpa using h),
          classify_low, List.filter_cons_of_pos (by simp [lt_of_not_le h])]
        simp only [List.length_cons]
        rw [classify_high, classify_low] at ih
        omega
  · intro r hr
    constructor
    · by_cases h : thr ≤ r.relevance
      · exact Or.inl (List.mem_filter.mpr ⟨hr, by simpa using h⟩)
      · exact Or.inr (List.mem_filter.mpr ⟨hr, by simp [lt_of_not_le h]⟩)
    · rintro ⟨h1, h2⟩
      have g1 := (List.mem_filter.mp h1).2
      have g2 := (List.mem_filter.mp h2).2
      simp only [decide_eq_true_eq] at g1 g2
      exact absurd g1 (not_le.mpr g2)
  · intro r hr
    have := (List.mem_filter.mp hr).2
    simpa using this
  · intro r hr
    have := (List.mem_filter.mp hr).2
    simpa using this

theorem classify_partition_witness :
    (resultAt rel059 ∈ classify_high [resultAt rel059] thr06 ∨
      resultAt rel059 ∈ classify_low [resultAt rel059] thr06) ∧
    ¬(resultAt rel059 ∈ classify_high [resultAt rel059] thr06 ∧
      resultAt rel059 ∈ classify_low [resultAt rel059] thr06) :=
  (classify_partition [resultAt rel059] thr06).2.1 (resultAt rel059) (by decide)

/-- C7 counterexample: with one high-tier result, no low-tier and no web
context, and fallback minimum 2 (AI answer and LLM knowledge enabled, as
by default), the returned flag is `True`, but the claimed characterization
— no context at all, or high below the minimum while low/web context
existed — is false at these counts. -/
theorem ai_knowledge_used_char_fails :
    ai_knowledge_used_flag 1 0 0 2 true true = true ∧
    ¬((1 + 0 + 0 = 0) ∨ (1 < 2 ∧ (0 < 0 ∨ 0 < 0))) := by
  decide

/-- C7 (amended): with AI answering and LLM-knowledge supplementation
enabled (the defaults), `ai_knowledge_used` is true exactly when there was
no context at all or the high-tier count is below the fallback minimum —
whether or not low/web context existed; in particular it is true whenever
the assembled context is empty, and false whenever the high-tier count
reaches a fallback minimum of at least 1. -/
theorem ai_knowledge_used_spec (hc lc wc minLocal : Nat) :
    (ai_knowledge_used_flag hc lc wc minLocal true true = true ↔
      (hc + lc + wc = 0 ∨ hc < minLocal)) ∧
    (hc + lc + wc = 0 → ai_knowledge_used_flag hc lc wc minLocal true true = true) ∧
    (1 ≤ minLocal → minLocal ≤ hc →
      ai_knowledge_used_flag hc lc wc minLocal true true = false) := by
  unfold ai_knowledge_used_flag
  by_cases hctx : 0 < hc + lc + wc
  · rw [show (decide (0 < hc + lc + wc)) = true from by simpa using hctx]
    simp
    omega
  · rw [show (decide (0 < hc + lc + wc)) = false from by simpa using hctx]
    simp
    omega

theorem ai_knowledge_used_spec_witness :
    ai_knowledge_used_flag 0 0 0 1 true true = true ∧
    ai_knowledge_used_flag 3 0 0 1 true true = false :=
  ⟨(ai_knowledge_used_spec 0 0 0 1).2.1 rfl,
    (ai_knowledge_used_spec 3 0 0 1).2.2 (by decide) (by decide)⟩

/-- C10: web fallback is triggered iff fallback is enabled and the
high-tier count is below the configured minimum, with the three concrete
instances from the spec. -/
theorem shouldFallback_spec :
    (∀ (enabled : Bool) (hc m : Nat),
      shouldFallback enabled hc m = true ↔ (enabled = true ∧ hc < m)) ∧
    shouldFallback true 0 1 = true ∧
    shouldFallback true 2 1 = false ∧
    (∀ hc m : Nat, shouldFallback false hc m = false) := by
  refine ⟨?_, by decide, by decide, ?_⟩
  · intro e hc m
    simp [shouldFallback]
  · intro hc m
    simp [shouldFallback]

theorem shouldFallback_spec_witness : shouldFallback true 0 5 = true :=
  (shouldFallback_spec.1 true 0 5).mpr ⟨rfl, by decide⟩

/-- C8: `delete_knowledge` removes every chunk whose metadata snapshot
references the id, removes the raw content file and the attachment files
(all recognised extensions), and for an id with no chunks — including the
second of two consecutive deletes — returns an explicit "not found" result
(leaving the state untouched) instead of raising. -/
theorem delete_knowledge_spec (st : StoreState) (kid : List Char) :
    (∀ c ∈ (delete_knowledge st kid).1.col, c.meta.base_id ≠ kid) ∧
    (st.col.filter (fun c => decide (c.meta.base_id = kid)) = [] →
      delete_knowledge st kid = (st, .notFound kid)) ∧
    (st.col.filter (fun c => decide (c.meta.base_id = kid)) ≠ [] →
      (∃ n, (delete_knowledge st kid).2 = .deleted kid n) ∧
      kid ∉ (delete_knowledge st kid).1.rawFiles ∧
      ∀ ext ∈ knownExts, (kid, ext) ∉ (delete_knowledge st kid).1.attachments) ∧
    (delete_knowledge (delete_knowledge st kid).1 kid).2 = .notFound kid := by
  have hclear : ∀ c ∈ (delete_knowledge st kid).1.col, c.meta.base_id ≠ kid := by
    intro c hc
    unfold delete_knowledge at hc
    by_cases hf : (st.col.filter fun c => decide (c.meta.base_id = kid)).isEmpty
    · rw [if_pos hf] at hc
      intro hbid
      have hmem : c ∈ st.col.filter fun c => decide (c.meta.base_id = kid) :=
        List.mem_filter.mpr ⟨hc, by simpa using hbid⟩
      rw [List.isEmpty_iff] at hf
      rw [hf] at hmem
      exact absurd hmem (List.not_mem_nil c)
    · rw [if_neg hf] at hc
      simp only [delete_all_files, delete_attachment, delete_raw_markdown] at hc
      have hc2 := List.mem_filter.mp hc
      intro hbid
      have hcin : c.cid ∈ (st.col.filter fun c => decide (c.meta.base_id = kid)).map Chunk.cid := by
        exact List.mem_map_of_mem Chunk.cid
          (List.mem_filter.mpr ⟨hc2.1, by simpa using hbid⟩)
      have := hc2.2
      simp only [Bool.not_eq_true', decide_eq_false_iff_not] at this
      exact this hcin
  refine ⟨hclear, ?_, ?_, ?_⟩
  · intro hnil
    unfold delete_knowledge
    rw [if_pos (by rw [hnil]; rfl)]
  · intro hne
    have hf : (st.col.filter fun c => decide (c.meta.base_id = kid)).isEmpty = false := by
      cases h : st.col.filter fun c => decide (c.meta.base_id = kid) with
      | nil => exact absurd h hne
      | cons a l => rfl
    refine ⟨⟨((st.col.filter fun c => decide (c.meta.base_id = kid)).map Chunk.cid).length, ?_⟩, ?_, ?_⟩
    · unfold delete_knowledge
      rw [if_neg (by rw [hf]; exact Bool.false_ne_true)]
    · unfold delete_knowledge
      rw [if_neg (by rw [hf]; exact Bool.false_ne_true)]
      simp only [delete_all_files, delete_attachment, delete_raw_markdown]
      intro hmem
      have := (List.mem_filter.mp hmem).2
      simp at this
    · intro ext hext
      unfold delete_knowledge
      rw [if_neg (by rw [hf]; exact Bool.false_ne_true)]
      simp only [delete_all_files, delete_attachment, delete_raw_markdown]
      intro hmem
      have := (List.mem_filter.mp hmem).2
      simp [hext] at this
  · have hnil2 : (delete_knowledge st kid).1.col.filter
        (fun c => decide (c.meta.base_id = kid)) = [] := by
      rw [List.filter_eq_nil_iff]
      intro c hc
      simpa using hclear c hc
    have hnf : ∀ (s : StoreState), s.col.filter (fun c => decide (c.meta.base_id = kid)) = [] →
        delete_knowledge s kid = (s, .notFound kid) := by
      intro s hs
      unfold delete_knowledge
      rw [if_pos (by rw [hs]; rfl)]
    rw [hnf _ hnil2]

theorem delete_knowledge_spec_witness :
    ((∃ n, (delete_knowledge demoStore ['k']).2 = .deleted ['k'] n) ∧
      ['k'] ∉ (delete_knowledge demoStore ['k']).1.rawFiles ∧
      ∀ ext ∈ knownExts, (['k'], ext) ∉ (delete_knowledge demoStore ['k']).1.attachments) ∧
    (delete_knowledge (delete_knowledge demoStore ['k']).1 ['k']).2 = .notFound ['k'] :=
  ⟨(delete_knowledge_spec demoStore ['k']).2.2.1 (by decide),
    (delete_knowledge_spec demoStore ['k']).2.2.2⟩

/-- C2: the update contract — for an id present in the index, the
metadata-only path (no content) succeeds, maps the metadata patch over the
collection leaving its length and every chunk's id, text, vector and the
non-title/tags snapshot fields unchanged, changing only the `title`/`tags`
fields of chunks of that item and touching no other chunk and no file;
and the content path deletes the item's chunks and re-runs the add
chunking/indexing path under the same id. -/
theorem update_knowledge_contract (embed : List Char → Nat) (cs ov fuel : Nat)
    (st : StoreState) (kid : List Char) (title tags : Option (List Char))
    (hp : st.col.filter (fun c => decide (c.meta.base_id = kid)) ≠ []) :
    (∃ st' : StoreState,
      update_knowledge embed cs ov fuel st kid none title tags =
        some (st', .metaPatched
          (st.col.filter (fun c => decide (c.meta.base_id = kid))).length) ∧
      st'.col = st.col.map (metaPatch kid title tags) ∧
      st'.rawFiles = st.rawFiles ∧ st'.attachments = st.attachments) ∧
    (∀ c : Chunk,
      (metaPatch kid title tags c).document = c.document ∧
      (metaPatch kid title tags c).vector = c.vector ∧
      (metaPatch kid title tags c).cid = c.cid ∧
      (metaPatch kid title tags c).meta.source = c.meta.source ∧
      (metaPatch kid title tags c).meta.base_id = c.meta.base_id ∧
      (metaPatch kid title tags c).meta.chunk_index = c.meta.chunk_index ∧
      (metaPatch kid title tags c).meta.total_chunks = c.meta.total_chunks ∧
      (metaPatch kid title tags c).meta.raw_file = c.meta.raw_file ∧
      (c.meta.base_id = kid →
        (metaPatch kid title tags c).meta.title = title.getD c.meta.title ∧
        (metaPatch kid title tags c).meta.tags = tags.getD c.meta.tags) ∧
      (c.meta.base_id ≠ kid → metaPatch kid title tags c = c)) ∧
    (∀ newContent chunks, split_text newContent cs ov fuel = some chunks →
      update_knowledge embed cs ov fuel st kid (some newContent) title tags =
        some ({ st with col :=
            ((st.col.filter fun c => !decide (c.meta.base_id = kid)) ++
              mk_chunks embed kid (updateBaseMeta st kid) title tags chunks) },
          .contentReplaced chunks.length)) := by
  have hne : (st.col.filter fun c => decide (c.meta.base_id = kid)).isEmpty = false := by
    cases h : st.col.filter fun c => decide (c.meta.base_id = kid) with
    | nil => exact absurd h hp
    | cons a l => rfl
  refine ⟨?_, ?_, ?_⟩
  · refine ⟨{ st with col := st.col.map (metaPatch kid title tags) }, ?_, rfl, rfl, rfl⟩
    unfold update_knowledge
    rw [if_neg (by rw [hne]; exact Bool.false_ne_true)]
  · intro c
    by_cases h : c.meta.base_id = kid
    · refine ⟨?_, ?_, ?_, ?_, ?_, ?_, ?_, ?_, fun _ => ⟨?_, ?_⟩, fun hn => absurd h hn⟩ <;>
        simp [metaPatch, h]
    · refine ⟨?_, ?_, ?_, ?_, ?_, ?_, ?_, ?_, fun hk => absurd hk h, fun _ => ?_⟩ <;>
        simp [metaPatch, h]
  · intro newContent chunks hsplit
    unfold update_knowledge
    rw [if_neg (by rw [hne]; exact Bool.false_ne_true)]
    dsimp only
    rw [hsplit]

theorem update_knowledge_contract_witness :
    ∃ st' : StoreState,
      update_knowledge (fun _ => 0) 500 100 9 demoStore ['k'] none (some ['T']) none =
        some (st', .metaPatched
          (demoStore.col.filter (fun c => decide (c.meta.base_id = ['k']))).length) ∧
      st'.col = demoStore.col.map (metaPatch ['k'] (some ['T']) none) ∧
      st'.rawFiles = demoStore.rawFiles ∧ st'.attachments = demoStore.attachments :=
  (update_knowledge_contract (fun _ => 0) 500 100 9 demoStore ['k']
    (some ['T']) none (by decide)).1

/-- C9 (amended): under the index contract that a query for `n` rows
returns at most `min n count` rows, `search_knowledge` returns at most
`min(topK, indexSize)` results, an empty index yields an empty result
sequence (not an error), and every returned result's relevance is
`1 - distance` rounded to four decimal places (`round(1 - dist, 4)`),
still not clamped to `[0, 1]`. -/
theorem search_knowledge_spec (count cfgTopK topK : Nat) (query : Nat → List QItem)
    (hq : ∀ n, (query n).length ≤ min n count) :
    (search_knowledge count cfgTopK query topK).length ≤ min topK count ∧
    (count = 0 → search_knowledge count cfgTopK query topK = []) ∧
    (∀ r ∈ search_knowledge count cfgTopK query topK,
      ∃ it ∈ query (min topK (min cfgTopK (max count 1))),
        r = resultOfItem it ∧ r.relevance = pyRound4 (1 - it.distance)) := by
  refine ⟨?_, ?_, ?_⟩
  · unfold search_knowledge
    by_cases h0 : count = 0
    · rw [if_pos h0]
      simp
    · rw [if_neg h0]
      rw [List.length_map]
      have h := hq (min topK (min cfgTopK (max count 1)))
      omega
  · intro h0
    unfold search_knowledge
    rw [if_pos h0]
  · intro r hr
    unfold search_knowledge at hr
    by_cases h0 : count = 0
    · rw [if_pos h0] at hr
      exact absurd hr (List.not_mem_nil r)
    · rw [if_neg h0] at hr
      obtain ⟨it, hit, rfl⟩ := List.mem_map.mp hr
      exact ⟨it, hit, rfl, rfl⟩

theorem rat_mk_eq_div (n : Int) (d : Nat) (h1 : d ≠ 0) (h2 : n.natAbs.Coprime d) :
    (⟨n, d, h1, h2⟩ : ℚ) = (n : ℚ) / (d : ℚ) :=
  (Rat.num_div_den _).symm

theorem one_sub_dist132 : (1 : ℚ) - dist132 = q3132 := by
  rw [show dist132 = ((1 : Int) : ℚ) / ((32 : Nat) : ℚ) from rat_mk_eq_div 1 32 (by decide) (by decide),
    show q3132 = ((31 : Int) : ℚ) / ((32 : Nat) : ℚ) from rat_mk_eq_div 31 32 (by decide) (by decide)]
  norm_num

/-- C9 counterexample: the claim says relevance is computed as
`1 - distance`; at distance 1/32 (exactly representable, a decimal tie)
the code's `round(1 - dist, 4)` yields 0.9688 ≠ 1 - 1/32 = 0.96875. -/
theorem search_relevance_not_exact :
    (search_knowledge 1 5 demoQuery 1).map SearchResultEntry.relevance =
      [pyRound4 (1 - dist132)] ∧
    pyRound4 (1 - dist132) = (9688 : ℚ) / 10000 ∧
    pyRound4 (1 - dist132) ≠ 1 - dist132 := by
  have hval : pyRound4 (1 - dist132) = (9688 : ℚ) / 10000 := by
    rw [one_sub_dist132]
    unfold pyRound4
    rw [show halfEvenRoundInt (q3132.num * 10000) q3132.den = 9688 from by decide]
    rw [Rat.mkRat_eq_div]
    norm_num
  refine ⟨rfl, hval, ?_⟩
  rw [hval, one_sub_dist132,
    show q3132 = ((31 : Int) : ℚ) / ((32 : Nat) : ℚ) from rat_mk_eq_div 31 32 (by decide) (by decide)]
  norm_num

theorem search_knowledge_spec_witness :
    (search_knowledge 1 5 demoQuery 3).length ≤ min 3 1 ∧
    (1 = 0 → search_knowledge 1 5 demoQuery 3 = []) ∧
    (∀ r ∈ search_knowledge 1 5 demoQuery 3,
      ∃ it ∈ demoQuery (min 3 (min 5 (max 1 1))),
        r = resultOfItem it ∧ r.relevance = pyRound4 (1 - it.distance)) :=
  search_knowledge_spec 1 5 3 demoQuery (by
    intro n
    simp only [demoQuery, List.length_take, List.length_cons, List.length_nil]
    omega)

/-- C9, no clamping: a distance above 1 produces a negative relevance that
is returned as is. -/
theorem search_relevance_unclamped :
    pyRound4 (1 - dist32) = qneghalf ∧ qneghalf < 0 := by
  have hsub : (1 : ℚ) - dist32 = qneghalf := by
    rw [show dist32 = ((3 : Int) : ℚ) / ((2 : Nat) : ℚ) from rat_mk_eq_div 3 2 (by decide) (by decide),
      show qneghalf = ((-1 : Int) : ℚ) / ((2 : Nat) : ℚ) from rat_mk_eq_div (-1) 2 (by decide) (by decide)]
    norm_num
  constructor
  · rw [hsub]
    unfold pyRound4
    rw [show halfEvenRoundInt (qneghalf.num * 10000) qneghalf.den = -5000 from by decide]
    rw [Rat.mkRat_eq_div]
    rw [show qneghalf = ((-1 : Int) : ℚ) / ((2 : Nat) : ℚ) from rat_mk_eq_div (-1) 2 (by decide) (by decide)]
    norm_num
  · rw [show qneghalf = ((-1 : Int) : ℚ) / ((2 : Nat) : ℚ) from rat_mk_eq_div (-1) 2 (by decide) (by decide)]
    norm_num
